import Mathlib

/-!
Verification development for the key-bundle module (kbfsmd/key_bundle.go).

The Go file is shallowly embedded here:

* Go maps (`map[K]V`) become association lists `List (Nat × V)` with a fixed
  iteration order (the list order); lookups take the first matching key, and
  the `keysNodup` predicate captures the Go-map invariant that keys are
  distinct.  `m[k]` on a missing key yields the zero value, modelled with
  `Option.getD`.
* Opaque external value types (UIDs, crypt public keys, server halves, HMAC
  ids, encrypted halves, errors of the crypto capability) become `Nat`.
* Functions that return `error` and mutate state in place become functions
  returning `Option KBError × <new state>` (`none` = success, Go `nil`
  error); the returned state reflects exactly the in-place mutations the Go
  code performed before returning, including those made on error paths.
-/

namespace KeyBundle

/-! ## Association-list map primitives -/

/-- First-match lookup on an association list, modelling Go map indexing. -/
def lookupKey {V : Type} (k : Nat) : List (Nat × V) → Option V
  | [] => none
  | (k2, v) :: rest => if k2 = k then some v else lookupKey k rest

/-- Keys of an association list. -/
def keysOf {V : Type} (l : List (Nat × V)) : List Nat :=
  l.map Prod.fst

/-- The Go-map invariant: all keys are distinct. -/
def keysNodup {V : Type} (l : List (Nat × V)) : Prop :=
  (l.map Prod.fst).Nodup

instance {V : Type} (l : List (Nat × V)) : Decidable (keysNodup l) := by
  unfold keysNodup; infer_instance

/-- Update the value stored at a (present) key, modelling Go `m[k] = v`
on a key already in the map. -/
def setKey {V : Type} (k : Nat) (v : V) : List (Nat × V) → List (Nat × V)
  | [] => []
  | (k2, v2) :: rest => if k2 = k then (k2, v) :: rest else (k2, v2) :: setKey k v rest

/-! ## Device public-key sets (key_bundle.go lines 36-56, 132-158)

Go: `type DevicePublicKeys map[kbfscrypto.CryptPublicKey]bool` and
`type UserDevicePublicKeys map[keybase1.UID]DevicePublicKeys`. -/

/-- Go `DevicePublicKeys`: a bool-valued map used as a set of device keys. -/
abbrev DevicePublicKeys := List (Nat × Bool)

/-- Go `UserDevicePublicKeys`: map from user to that user's device set. -/
abbrev UserDevicePublicKeys := List (Nat × DevicePublicKeys)

/-- Go `DevicePublicKeys.Equals`: length check, then for every key of `dpk`
the value `other[k]` must be true (missing keys read as `false`). -/
def DevicePublicKeys.Equals (dpk other : DevicePublicKeys) : Bool :=
  (dpk.length == other.length) &&
  dpk.all (fun p => (lookupKey p.1 other).getD false)

/-- Go `UserDevicePublicKeys.Equals`: length check, then per-user
`DevicePublicKeys.Equals` against `other[u]` (missing users read as the
empty map). -/
def UserDevicePublicKeys.Equals (udpk other : UserDevicePublicKeys) : Bool :=
  (udpk.length == other.length) &&
  udpk.all (fun p => DevicePublicKeys.Equals p.2 ((lookupKey p.1 other).getD []))

/-- Go `UserDevicePublicKeys.RemoveKeylessUsersForTest`: keep exactly the
users whose device map is non-empty. -/
def UserDevicePublicKeys.RemoveKeylessUsersForTest
    (udpk : UserDevicePublicKeys) : UserDevicePublicKeys :=
  udpk.filter (fun p => decide (0 < p.2.length))

/-! ## Key splitting (key_bundle.go lines 16-130) -/

/-- Go `TLFCryptKeyInfo`.  The embedded `codec.UnknownFieldSetHandler`
only carries opaque serialization state and is omitted; the opaque
`EncryptedTLFCryptKeyClientHalf` and `TLFCryptKeyServerHalfID` values are
modelled as `Nat`. -/
structure TLFCryptKeyInfo where
  clientHalf : Nat
  serverHalfID : Nat
  ePubKeyIndex : Int
deriving DecidableEq

/-- Go zero value `TLFCryptKeyInfo\x7b\x7d`. -/
def TLFCryptKeyInfo.zero : TLFCryptKeyInfo := ⟨0, 0, 0⟩

/-- Go `cryptoPure`: the injected crypto capability, three fallible pure
operations.  Errors of the capability are opaque and modelled as `Nat`. -/
structure CryptoPure where
  makeRandomTLFCryptKeyServerHalf : Except Nat Nat
  encryptTLFCryptKeyClientHalf : Nat → Nat → Nat → Except Nat Nat
  getTLFCryptKeyServerHalfID : Nat → Nat → Nat → Except Nat Nat

/-- Modelled from the spec: `kbfscrypto.MaskTLFCryptKey` lives in the
external kbfscrypto package and is not under src/; spec section 4.1 step 2
describes it as a deterministic, invertible, XOR-style combine of the
server half with the folder key over the key bytes. -/
def MaskTLFCryptKey (serverHalf tlfCryptKey : Nat) : Nat :=
  Nat.xor serverHalf tlfCryptKey

/-- Go `SplitTLFCryptKey` (key_bundle.go lines 94-130).  The Go signature
returns `(TLFCryptKeyInfo, TLFCryptKeyServerHalf, error)`; the error slot
becomes `Option Nat` (`none` = Go `nil`). -/
def SplitTLFCryptKey (crypto : CryptoPure) (uid : Nat) (tlfCryptKey : Nat)
    (ePrivKey : Nat) (ePubIndex : Int) (pubKey : Nat) :
    TLFCryptKeyInfo × Nat × Option Nat :=
  match crypto.makeRandomTLFCryptKeyServerHalf with
  | .error e => (TLFCryptKeyInfo.zero, 0, some e)
  | .ok serverHalf =>
    let clientHalf := MaskTLFCryptKey serverHalf tlfCryptKey
    match crypto.encryptTLFCryptKeyClientHalf ePrivKey pubKey clientHalf with
    | .error e => (TLFCryptKeyInfo.zero, 0, some e)
    | .ok encryptedClientHalf =>
      match crypto.getTLFCryptKeyServerHalfID uid pubKey serverHalf with
      | .error e => (TLFCryptKeyInfo.zero, 0, some e)
      | .ok serverHalfID =>
        (⟨encryptedClientHalf, serverHalfID, ePubIndex⟩, serverHalf, none)

/-! ## Disjoint user merges (key_bundle.go lines 160-179, 267-285) -/

/-- Go `DeviceKeyServerHalves`: device key to server half. -/
abbrev DeviceKeyServerHalves := List (Nat × Nat)

/-- Go `UserDeviceKeyServerHalves`. -/
abbrev UserDeviceKeyServerHalves := List (Nat × DeviceKeyServerHalves)

/-- Second loop of the Go MergeUsers functions: fold the other map's
entries into the already-copied merged map, failing on a key collision.
The error carries the colliding UID (Go formats it into the message
"user %s is in both ..."). -/
def mergeUsersLoop {V : Type} : List (Nat × V) → List (Nat × V) → Except Nat (List (Nat × V))
  | [], merged => .ok merged
  | (uid, v) :: rest, merged =>
    if (lookupKey uid merged).isSome then .error uid
    else mergeUsersLoop rest (merged ++ [(uid, v)])

/-- Generic form shared by Go `UserDeviceKeyServerHalves.MergeUsers` and
`ServerHalfRemovalInfo.MergeUsers`: copy the receiver into the merged map
(first loop), then add the other map's users (second loop), erroring on a
user present in both.  The copy is shallow, as in Go. -/
def mergeUsers {V : Type} (a other : List (Nat × V)) : Except Nat (List (Nat × V)) :=
  mergeUsersLoop other a

/-- Go `UserDeviceKeyServerHalves.MergeUsers` (key_bundle.go lines
163-179). -/
def UserDeviceKeyServerHalves.MergeUsers
    (serverHalves other : UserDeviceKeyServerHalves) :
    Except Nat UserDeviceKeyServerHalves :=
  mergeUsers serverHalves other

/-! ## Server-half removal info (key_bundle.go lines 181-265) -/

/-- Go `DeviceServerHalfRemovalInfo`: device key to the ordered list of
server-half IDs accumulated for it, one per processed generation. -/
abbrev DeviceServerHalfRemovalInfo := List (Nat × List Nat)

/-- Go `UserServerHalfRemovalInfo`. -/
structure UserServerHalfRemovalInfo where
  userRemoved : Bool
  deviceServerHalfIDs : DeviceServerHalfRemovalInfo
deriving DecidableEq

/-- Go `ServerHalfRemovalInfo`: map from user to their removal record. -/
abbrev ServerHalfRemovalInfo := List (Nat × UserServerHalfRemovalInfo)

/-- Errors of the AddGeneration family, one constructor per `fmt.Errorf`
call site in the Go code, carrying the same data the Go message formats
(the offending user, device where applicable, and conflicting values). -/
inductive KBError where
  /-- Go: "UserRemoved=%t != generation UserRemoved=%t for user %s". -/
  | flagMismatch (riRemoved genRemoved : Bool) (uid : Nat)
  /-- Go: "device count=%d != generation device count=%d for user %s". -/
  | deviceCountMismatch (riCount genCount : Nat) (uid : Nat)
  /-- Go: "expected %d keys, got %d for user %s and device %s". -/
  | idCountMismatch (expected got : Nat) (uid devKey : Nat)
  /-- Go: "expected exactly one key, got %d for user %s and device %s". -/
  | wrongIDsPerDevice (got : Nat) (uid devKey : Nat)
  /-- Go: "no generation info for user %s and device %s". -/
  | noDeviceGenInfo (uid devKey : Nat)
  /-- Go: "user count=%d != generation user count=%d". -/
  | userCountMismatch (infoCount genCount : Nat)
  /-- Go: "no generation info for user %s". -/
  | noUserGenInfo (uid : Nat)
deriving DecidableEq

/-- Length of the accumulated ID list of one device: Go
`len(ri.DeviceServerHalfIDs[key])`, where a missing key reads as the
empty (nil) list. -/
def devLen (dev : DeviceServerHalfRemovalInfo) (k : Nat) : Nat :=
  ((lookupKey k dev).getD []).length

/-- Per-device loop of Go `UserServerHalfRemovalInfo.addGeneration`
(key_bundle.go lines 211-236).  The Go `idCount` accumulator starts at
the sentinel `-1`, modelled as `Option Nat` (`none` = unset).  The Go
loop appends to the per-device lists in place while iterating, so the
returned state keeps the appends made before a failing check. -/
def addGenLoop (uid : Nat) (gen : DeviceServerHalfRemovalInfo)
    (idCount : Option Nat) (ri : UserServerHalfRemovalInfo) :
    Option KBError × UserServerHalfRemovalInfo :=
  match gen with
  | [] => (none, ri)
  | (key, serverHalfIDs) :: rest =>
    match idCount with
    | some n =>
      if devLen ri.deviceServerHalfIDs key ≠ n then
        (some (.idCountMismatch n (devLen ri.deviceServerHalfIDs key) uid key), ri)
      else if serverHalfIDs.length ≠ 1 then
        (some (.wrongIDsPerDevice serverHalfIDs.length uid key), ri)
      else
        match lookupKey key ri.deviceServerHalfIDs with
        | none => (some (.noDeviceGenInfo uid key), ri)
        | some ids =>
          addGenLoop uid rest (some n)
            ⟨ri.userRemoved,
             setKey key (ids ++ [serverHalfIDs.headD 0]) ri.deviceServerHalfIDs⟩
    | none =>
      if serverHalfIDs.length ≠ 1 then
        (some (.wrongIDsPerDevice serverHalfIDs.length uid key), ri)
      else
        match lookupKey key ri.deviceServerHalfIDs with
        | none => (some (.noDeviceGenInfo uid key), ri)
        | some ids =>
          addGenLoop uid rest (some (devLen ri.deviceServerHalfIDs key))
            ⟨ri.userRemoved,
             setKey key (ids ++ [serverHalfIDs.headD 0]) ri.deviceServerHalfIDs⟩

/-- Go `UserServerHalfRemovalInfo.addGeneration` (key_bundle.go lines
196-239). -/
def UserServerHalfRemovalInfo.addGeneration (ri : UserServerHalfRemovalInfo)
    (uid : Nat) (genInfo : UserServerHalfRemovalInfo) :
    Option KBError × UserServerHalfRemovalInfo :=
  if ri.userRemoved ≠ genInfo.userRemoved then
    (some (.flagMismatch ri.userRemoved genInfo.userRemoved uid), ri)
  else if ri.deviceServerHalfIDs.length ≠ genInfo.deviceServerHalfIDs.length then
    (some (.deviceCountMismatch ri.deviceServerHalfIDs.length
            genInfo.deviceServerHalfIDs.length uid), ri)
  else
    addGenLoop uid genInfo.deviceServerHalfIDs none ri

/-- Per-user loop of Go `ServerHalfRemovalInfo.AddGeneration`
(key_bundle.go lines 255-263).  In Go the per-user fold mutates the
shared per-device map in place, so the updated user record is written
back even when the fold reports an error. -/
def addGenUsers (gen : List (Nat × UserServerHalfRemovalInfo))
    (info : ServerHalfRemovalInfo) : Option KBError × ServerHalfRemovalInfo :=
  match gen with
  | [] => (none, info)
  | (uid, removalInfo) :: rest =>
    match lookupKey uid info with
    | none => (some (.noUserGenInfo uid), info)
    | some ri =>
      match ri.addGeneration uid removalInfo with
      | (some e, ri2) => (some e, setKey uid ri2 info)
      | (none, ri2) => addGenUsers rest (setKey uid ri2 info)

/-- Go `ServerHalfRemovalInfo.AddGeneration` (key_bundle.go lines
247-265). -/
def ServerHalfRemovalInfo.AddGeneration (info genInfo : ServerHalfRemovalInfo) :
    Option KBError × ServerHalfRemovalInfo :=
  if info.length ≠ genInfo.length then
    (some (.userCountMismatch info.length genInfo.length), info)
  else
    addGenUsers genInfo info

/-- Go `ServerHalfRemovalInfo.MergeUsers` (key_bundle.go lines
270-285). -/
def ServerHalfRemovalInfo.MergeUsers (info other : ServerHalfRemovalInfo) :
    Except Nat ServerHalfRemovalInfo :=
  mergeUsers info other

/-! ## Structural-consistency predicates (from the spec's words)

These restate the structural conditions of spec section 4.3 (and of
claims C1 and C3) independently of the code, for comparison with the
behaviour of `AddGeneration`. -/

/-- Per-user structural conditions of spec section 4.3: flag agreement,
device-count agreement, exactly one incoming ID per generation device,
every generation device present in the history, and all generation
devices agreeing on the pre-call accumulated ID-list length. -/
def userGenerationConsistent (ri genInfo : UserServerHalfRemovalInfo) : Bool :=
  (ri.userRemoved == genInfo.userRemoved) &&
  (ri.deviceServerHalfIDs.length == genInfo.deviceServerHalfIDs.length) &&
  genInfo.deviceServerHalfIDs.all (fun q =>
    (q.2.length == 1) && (lookupKey q.1 ri.deviceServerHalfIDs).isSome) &&
  genInfo.deviceServerHalfIDs.all (fun q =>
    genInfo.deviceServerHalfIDs.all (fun q2 =>
      devLen ri.deviceServerHalfIDs q.1 == devLen ri.deviceServerHalfIDs q2.1))

/-- Whole-generation structural conditions of spec section 4.3: equal user
counts, every generation user present in the history, and the per-user
conditions for each generation user. -/
def generationConsistent (info genInfo : ServerHalfRemovalInfo) : Bool :=
  (info.length == genInfo.length) &&
  genInfo.all (fun p =>
    match lookupKey p.1 info with
    | none => false
    | some ri => userGenerationConsistent ri p.2)

/-- Propositional form of `userGenerationConsistent`. -/
def userGenerationConsistentP (ri genInfo : UserServerHalfRemovalInfo) : Prop :=
  ri.userRemoved = genInfo.userRemoved ∧
  ri.deviceServerHalfIDs.length = genInfo.deviceServerHalfIDs.length ∧
  (∀ q ∈ genInfo.deviceServerHalfIDs,
    q.2.length = 1 ∧ (lookupKey q.1 ri.deviceServerHalfIDs).isSome = true) ∧
  (∀ q ∈ genInfo.deviceServerHalfIDs, ∀ q2 ∈ genInfo.deviceServerHalfIDs,
    devLen ri.deviceServerHalfIDs q.1 = devLen ri.deviceServerHalfIDs q2.1)

/-- Accumulated ID list of one device in a whole removal-info value
(missing user or device reads as empty, matching Go map indexing). -/
def deviceIDs (m : ServerHalfRemovalInfo) (uid key : Nat) : List Nat :=
  match lookupKey uid m with
  | none => []
  | some ri => (lookupKey key ri.deviceServerHalfIDs).getD []

/-- Deterministic crypto stub used to exercise `SplitTLFCryptKey` on a
concrete input. -/
def stubCrypto : CryptoPure where
  makeRandomTLFCryptKeyServerHalf := .ok 5
  encryptTLFCryptKeyClientHalf := fun ePrivKey pubKey clientHalf =>
    .ok (ePrivKey + pubKey + clientHalf)
  getTLFCryptKeyServerHalfID := fun uid pubKey serverHalf =>
    .ok (uid * 100 + pubKey * 10 + serverHalf)

/-- Crypto stub whose random-generation step fails. -/
def failRandomCrypto : CryptoPure where
  makeRandomTLFCryptKeyServerHalf := .error 9
  encryptTLFCryptKeyClientHalf := fun _ _ _ => .ok 0
  getTLFCryptKeyServerHalfID := fun _ _ _ => .ok 0

/-! ## Lemmas about the association-list primitives -/

theorem lookupKey_eq_some_mem {V : Type} {k : Nat} {v : V} :
    ∀ {l : List (Nat × V)}, lookupKey k l = some v → (k, v) ∈ l := by
  intro l
  induction l with
  | nil => intro h; simp [lookupKey] at h
  | cons p rest ih =>
    obtain ⟨k2, v2⟩ := p
    intro h
    simp only [lookupKey] at h
    by_cases hk : k2 = k
    · simp [hk] at h
      subst hk; subst h
      exact List.mem_cons_self _ _
    · simp [hk] at h
      exact List.mem_cons_of_mem _ (ih h)

theorem lookupKey_isSome_iff_mem {V : Type} {k : Nat} :
    ∀ {l : List (Nat × V)}, (lookupKey k l).isSome = true ↔ k ∈ keysOf l := by
  intro l
  induction l with
  | nil => simp [lookupKey, keysOf]
  | cons p rest ih =>
    obtain ⟨k2, v2⟩ := p
    by_cases hk : k2 = k
    · simp [lookupKey, keysOf, hk]
    · have hk2 : ¬ k = k2 := fun h => hk h.symm
      simp [lookupKey, keysOf, hk, hk2, ih]

theorem lookupKey_eq_none_iff_not_mem {V : Type} {k : Nat} {l : List (Nat × V)} :
    lookupKey k l = none ↔ k ∉ keysOf l := by
  rw [← lookupKey_isSome_iff_mem]
  cases h : lookupKey k l <;> simp [h]

theorem lookupKey_append {V : Type} (k : Nat) (l1 l2 : List (Nat × V)) :
    lookupKey k (l1 ++ l2) =
      match lookupKey k l1 with
      | some v => some v
      | none => lookupKey k l2 := by
  induction l1 with
  | nil => simp [lookupKey]
  | cons p rest ih =>
    obtain ⟨k2, v2⟩ := p
    by_cases hk : k2 = k <;> simp [lookupKey, hk, ih]

theorem lookupKey_setKey_self {V : Type} (k : Nat) (v : V) :
    ∀ (l : List (Nat × V)), (lookupKey k l).isSome = true →
      lookupKey k (setKey k v l) = some v := by
  intro l
  induction l with
  | nil => simp [lookupKey]
  | cons p rest ih =>
    obtain ⟨k2, v2⟩ := p
    by_cases hk : k2 = k
    · simp [lookupKey, setKey, hk]
    · simp [lookupKey, setKey, hk]
      exact ih

theorem lookupKey_setKey_ne {V : Type} {k k2 : Nat} (v : V) (h : k2 ≠ k) :
    ∀ (l : List (Nat × V)), lookupKey k2 (setKey k v l) = lookupKey k2 l := by
  intro l
  induction l with
  | nil => simp [setKey]
  | cons p rest ih =>
    obtain ⟨ka, va⟩ := p
    by_cases hk : ka = k
    · subst hk
      have hne : ¬ ka = k2 := fun hh => h hh.symm
      simp [setKey, lookupKey, hne]
    · simp [setKey, hk, lookupKey, ih]

theorem userGenerationConsistent_iff (ri genInfo : UserServerHalfRemovalInfo) :
    userGenerationConsistent ri genInfo = true ↔ userGenerationConsistentP ri genInfo := by
  simp [userGenerationConsistent, userGenerationConsistentP, List.all_eq_true,
    Bool.and_eq_true, beq_iff_eq, and_assoc, forall_and]

theorem generationConsistent_iff (info genInfo : ServerHalfRemovalInfo) :
    generationConsistent info genInfo = true ↔
      (info.length = genInfo.length ∧
       ∀ p ∈ genInfo, ∃ ri, lookupKey p.1 info = some ri ∧
         userGenerationConsistentP ri p.2) := by
  simp only [generationConsistent, Bool.and_eq_true, beq_iff_eq, List.all_eq_true]
  constructor
  · rintro ⟨h1, h2⟩
    refine ⟨h1, fun p hp => ?_⟩
    have hcase := h2 p hp
    cases hl : lookupKey p.1 info with
    | none => rw [hl] at hcase; simp at hcase
    | some ri =>
      rw [hl] at hcase
      exact ⟨ri, rfl, (userGenerationConsistent_iff _ _).mp hcase⟩
  · rintro ⟨h1, h2⟩
    refine ⟨h1, fun p hp => ?_⟩
    obtain ⟨ri, hl, hc⟩ := h2 p hp
    rw [hl]
    exact (userGenerationConsistent_iff _ _).mpr hc

/-! ## Lemmas about the per-device loop -/

theorem keysNodup_cons {V : Type} {p : Nat × V} {rest : List (Nat × V)}
    (h : keysNodup (p :: rest)) : p.1 ∉ keysOf rest ∧ keysNodup rest := by
  unfold keysNodup at h
  rw [List.map_cons, List.nodup_cons] at h
  exact ⟨h.1, h.2⟩

theorem eq_headD_of_length_one (xs : List Nat) (h : xs.length = 1) :
    xs = [xs.headD 0] := by
  cases xs with
  | nil => simp at h
  | cons x t =>
    cases t with
    | nil => rfl
    | cons y t2 => simp at h

/-- Success of the per-device loop: if every generation device carries
exactly one ID, is present in the history, and all pre-call accumulated
lengths equal `c` (compatible with the running `idCount`), the loop
succeeds and appends each device's single ID at the end of its list. -/
theorem addGenLoop_ok (uid : Nat) :
    ∀ (gen : DeviceServerHalfRemovalInfo) (idCount : Option Nat)
      (ri : UserServerHalfRemovalInfo) (c : Nat),
      keysNodup gen →
      (idCount = none ∨ idCount = some c) →
      (∀ q ∈ gen, q.2.length = 1) →
      (∀ q ∈ gen, (lookupKey q.1 ri.deviceServerHalfIDs).isSome = true) →
      (∀ q ∈ gen, devLen ri.deviceServerHalfIDs q.1 = c) →
      ∃ ri2, addGenLoop uid gen idCount ri = (none, ri2) ∧
        (∀ q ∈ gen, lookupKey q.1 ri2.deviceServerHalfIDs =
          some (((lookupKey q.1 ri.deviceServerHalfIDs).getD []) ++ q.2)) ∧
        (∀ k, k ∉ keysOf gen →
          lookupKey k ri2.deviceServerHalfIDs = lookupKey k ri.deviceServerHalfIDs) := by
  intro gen
  induction gen with
  | nil =>
    intro idCount ri c _ _ _ _ _
    exact ⟨ri, rfl, by simp, fun k _ => rfl⟩
  | cons q0 rest ih =>
    obtain ⟨key, serverHalfIDs⟩ := q0
    intro idCount ri c hnd hid hone hpres hlen
    obtain ⟨hkey_notin, hnd'⟩ := keysNodup_cons hnd
    have h1 : serverHalfIDs.length = 1 := hone _ (List.mem_cons_self _ _)
    have hpres0 := hpres _ (List.mem_cons_self _ _)
    obtain ⟨ids, hids⟩ := Option.isSome_iff_exists.mp hpres0
    have hlen0 : devLen ri.deviceServerHalfIDs key = c := hlen _ (List.mem_cons_self _ _)
    set ri1 : UserServerHalfRemovalInfo :=
      ⟨ri.userRemoved,
       setKey key (ids ++ [serverHalfIDs.headD 0]) ri.deviceServerHalfIDs⟩ with hri1
    have hstep : addGenLoop uid ((key, serverHalfIDs) :: rest) idCount ri =
        addGenLoop uid rest (some c) ri1 := by
      rcases hid with rfl | rfl
      · simp [addGenLoop, h1, hids, hri1, ← hlen0]
      · simp [addGenLoop, h1, hids, hri1, hlen0]
    have hq_ne : ∀ q ∈ rest, q.1 ≠ key := by
      intro q hq hcontra
      exact hkey_notin (by
        simpa [keysOf, ← hcontra] using List.mem_map_of_mem Prod.fst hq)
    have hpres' : ∀ q ∈ rest, (lookupKey q.1 ri1.deviceServerHalfIDs).isSome = true := by
      intro q hq
      rw [hri1]
      simpa [lookupKey_setKey_ne _ (hq_ne q hq)] using hpres q (List.mem_cons_of_mem _ hq)
    have hlen' : ∀ q ∈ rest, devLen ri1.deviceServerHalfIDs q.1 = c := by
      intro q hq
      rw [hri1]
      simpa [devLen, lookupKey_setKey_ne _ (hq_ne q hq)] using hlen q (List.mem_cons_of_mem _ hq)
    obtain ⟨ri2, hloop, hlook, hframe⟩ :=
      ih (some c) ri1 c hnd' (Or.inr rfl)
        (fun q hq => hone q (List.mem_cons_of_mem _ hq)) hpres' hlen'
    refine ⟨ri2, by rw [hstep, hloop], ?_, ?_⟩
    · intro q hq
      rcases List.mem_cons.mp hq with rfl | hq'
      · have hfr : lookupKey key ri2.deviceServerHalfIDs =
            lookupKey key ri1.deviceServerHalfIDs := hframe key hkey_notin
        rw [hfr, hri1]
        have hset : lookupKey key
            (setKey key (ids ++ [serverHalfIDs.headD 0]) ri.deviceServerHalfIDs) =
            some (ids ++ [serverHalfIDs.headD 0]) :=
          lookupKey_setKey_self key _ _ hpres0
        rw [hset, hids]
        have hsh := (eq_headD_of_length_one serverHalfIDs h1).symm
        simp only [Option.getD_some]
        rw [hsh]
      · have := hlook q hq'
        rw [this, hri1]
        simp [lookupKey_setKey_ne _ (hq_ne q hq')]
    · intro k hk
      have hk1 : k ∉ keysOf rest := by
        intro hcontra; exact hk (by simp [keysOf] at hcontra ⊢; exact Or.inr hcontra)
      have hk2 : k ≠ key := by
        intro hcontra; exact hk (by simp [keysOf, hcontra])
      rw [hframe k hk1, hri1]
      simp [lookupKey_setKey_ne _ hk2]

/-- Inverse direction: if the per-device loop succeeds, every generation
device carried exactly one ID and was present in the history, the running
idCount (when set) matched every device's pre-call length, and all
generation devices agreed on their pre-call accumulated lengths. -/
theorem addGenLoop_ok_inv (uid : Nat) :
    ∀ (gen : DeviceServerHalfRemovalInfo) (idCount : Option Nat)
      (ri : UserServerHalfRemovalInfo),
      keysNodup gen →
      (addGenLoop uid gen idCount ri).1 = none →
      (∀ q ∈ gen, q.2.length = 1 ∧ (lookupKey q.1 ri.deviceServerHalfIDs).isSome = true) ∧
      (∀ n, idCount = some n → ∀ q ∈ gen, devLen ri.deviceServerHalfIDs q.1 = n) ∧
      (∀ q ∈ gen, ∀ q2 ∈ gen,
        devLen ri.deviceServerHalfIDs q.1 = devLen ri.deviceServerHalfIDs q2.1) := by
  intro gen
  induction gen with
  | nil =>
    intro idCount ri _ _
    exact ⟨by simp, by simp, by simp⟩
  | cons q0 rest ih =>
    obtain ⟨key, serverHalfIDs⟩ := q0
    intro idCount ri hnd h
    obtain ⟨hkey_notin, hnd'⟩ := keysNodup_cons hnd
    have hq_ne : ∀ q ∈ rest, q.1 ≠ key := by
      intro q hq hcontra
      exact hkey_notin (by
        simpa [keysOf, ← hcontra] using List.mem_map_of_mem Prod.fst hq)
    cases idCount with
    | some n =>
      by_cases hd : devLen ri.deviceServerHalfIDs key = n
      case neg =>
        exfalso
        simp only [addGenLoop] at h
        simp [hd] at h
      case pos =>
      by_cases hl1 : serverHalfIDs.length = 1
      case neg =>
        exfalso
        simp only [addGenLoop] at h
        simp [hd, hl1] at h
      case pos =>
      cases hids : lookupKey key ri.deviceServerHalfIDs with
      | none =>
        exfalso
        simp only [addGenLoop] at h
        simp [hd, hl1, hids] at h
      | some ids =>
        set ri1 : UserServerHalfRemovalInfo :=
          ⟨ri.userRemoved,
           setKey key (ids ++ [serverHalfIDs.headD 0]) ri.deviceServerHalfIDs⟩ with hri1
        have hstep : addGenLoop uid ((key, serverHalfIDs) :: rest) (some n) ri =
            addGenLoop uid rest (some n) ri1 := by
          simp [addGenLoop, hd, hl1, hids, hri1]
        rw [hstep] at h
        obtain ⟨hA, hB, _⟩ := ih (some n) ri1 hnd' h
        have htrans : ∀ q ∈ rest,
            lookupKey q.1 ri1.deviceServerHalfIDs = lookupKey q.1 ri.deviceServerHalfIDs := by
          intro q hq
          rw [hri1]
          exact lookupKey_setKey_ne _ (hq_ne q hq) _
        have hall : ∀ q ∈ ((key, serverHalfIDs) :: rest),
            devLen ri.deviceServerHalfIDs q.1 = n := by
          intro q hq
          rcases List.mem_cons.mp hq with rfl | hq'
          · exact hd
          · have := hB n rfl q hq'
            rwa [devLen, htrans q hq', ← devLen] at this
        refine ⟨?_, ?_, ?_⟩
        · intro q hq
          rcases List.mem_cons.mp hq with rfl | hq'
          · exact ⟨hl1, by rw [hids]; rfl⟩
          · have := hA q hq'
            rwa [htrans q hq'] at this
        · intro m hm q hq
          cases hm
          exact hall q hq
        · intro q hq q2 hq2
          rw [hall q hq, hall q2 hq2]
    | none =>
      by_cases hl1 : serverHalfIDs.length = 1
      case neg =>
        exfalso
        simp only [addGenLoop] at h
        simp [hl1] at h
      case pos =>
      cases hids : lookupKey key ri.deviceServerHalfIDs with
      | none =>
        exfalso
        simp only [addGenLoop] at h
        simp [hl1, hids] at h
      | some ids =>
        set ri1 : UserServerHalfRemovalInfo :=
          ⟨ri.userRemoved,
           setKey key (ids ++ [serverHalfIDs.headD 0]) ri.deviceServerHalfIDs⟩ with hri1
        have hstep : addGenLoop uid ((key, serverHalfIDs) :: rest) none ri =
            addGenLoop uid rest (some (devLen ri.deviceServerHalfIDs key)) ri1 := by
          simp [addGenLoop, hl1, hids, hri1]
        rw [hstep] at h
        obtain ⟨hA, hB, _⟩ := ih (some (devLen ri.deviceServerHalfIDs key)) ri1 hnd' h
        have htrans : ∀ q ∈ rest,
            lookupKey q.1 ri1.deviceServerHalfIDs = lookupKey q.1 ri.deviceServerHalfIDs := by
          intro q hq
          rw [hri1]
          exact lookupKey_setKey_ne _ (hq_ne q hq) _
        have hall : ∀ q ∈ ((key, serverHalfIDs) :: rest),
            devLen ri.deviceServerHalfIDs q.1 = devLen ri.deviceServerHalfIDs key := by
          intro q hq
          rcases List.mem_cons.mp hq with rfl | hq'
          · rfl
          · have := hB _ rfl q hq'
            rwa [devLen, htrans q hq', ← devLen] at this
        refine ⟨?_, ?_, ?_⟩
        · intro q hq
          rcases List.mem_cons.mp hq with rfl | hq'
          · exact ⟨hl1, by rw [hids]; rfl⟩
          · have := hA q hq'
            rwa [htrans q hq'] at this
        · intro m hm
          exact absurd hm (by simp)
        · intro q hq q2 hq2
          rw [hall q hq, hall q2 hq2]

/-- Success of the per-user fold under the per-user structural
conditions, with the resulting per-device appends. -/
theorem addGeneration_ok_state (uid : Nat) (ri genInfo : UserServerHalfRemovalInfo)
    (hnd : keysNodup genInfo.deviceServerHalfIDs)
    (h : userGenerationConsistentP ri genInfo) :
    ∃ ri2, ri.addGeneration uid genInfo = (none, ri2) ∧
      ∀ q ∈ genInfo.deviceServerHalfIDs,
        lookupKey q.1 ri2.deviceServerHalfIDs =
          some (((lookupKey q.1 ri.deviceServerHalfIDs).getD []) ++ q.2) := by
  obtain ⟨hf, hc, hdevs, hpair⟩ := h
  obtain ⟨c, hlen⟩ : ∃ c, ∀ q ∈ genInfo.deviceServerHalfIDs,
      devLen ri.deviceServerHalfIDs q.1 = c := by
    cases hg : genInfo.deviceServerHalfIDs with
    | nil => exact ⟨0, by simp⟩
    | cons q0 rest =>
      refine ⟨devLen ri.deviceServerHalfIDs q0.1, fun q hq => ?_⟩
      exact hpair q (by rw [hg]; exact hq) q0 (by rw [hg]; exact List.mem_cons_self _ _)
  obtain ⟨ri2, hloop, hlook, _⟩ :=
    addGenLoop_ok uid genInfo.deviceServerHalfIDs none ri c hnd (Or.inl rfl)
      (fun q hq => (hdevs q hq).1) (fun q hq => (hdevs q hq).2) hlen
  refine ⟨ri2, ?_, hlook⟩
  simp [UserServerHalfRemovalInfo.addGeneration, hf, hc, hloop]

/-- The per-user fold succeeds exactly under the per-user structural
conditions. -/
theorem addGeneration_ok_iff (uid : Nat) (ri genInfo : UserServerHalfRemovalInfo)
    (hnd : keysNodup genInfo.deviceServerHalfIDs) :
    (ri.addGeneration uid genInfo).1 = none ↔ userGenerationConsistentP ri genInfo := by
  constructor
  · intro h
    by_cases hf : ri.userRemoved = genInfo.userRemoved
    case neg =>
      exfalso; simp [UserServerHalfRemovalInfo.addGeneration, hf] at h
    by_cases hc : ri.deviceServerHalfIDs.length = genInfo.deviceServerHalfIDs.length
    case neg =>
      exfalso; simp [UserServerHalfRemovalInfo.addGeneration, hf, hc] at h
    have hloop : (addGenLoop uid genInfo.deviceServerHalfIDs none ri).1 = none := by
      simpa [UserServerHalfRemovalInfo.addGeneration, hf, hc] using h
    obtain ⟨hA, _, hC⟩ := addGenLoop_ok_inv uid genInfo.deviceServerHalfIDs none ri hnd hloop
    exact ⟨hf, hc, hA, hC⟩
  · intro h
    obtain ⟨ri2, heq, _⟩ := addGeneration_ok_state uid ri genInfo hnd h
    rw [heq]

/-- Success of the per-user loop of AddGeneration when every generation
user is present and structurally consistent with its history record. -/
theorem addGenUsers_ok :
    ∀ (gen : List (Nat × UserServerHalfRemovalInfo)) (info : ServerHalfRemovalInfo),
      keysNodup gen →
      (∀ p ∈ gen, keysNodup p.2.deviceServerHalfIDs) →
      (∀ p ∈ gen, ∃ ri, lookupKey p.1 info = some ri ∧ userGenerationConsistentP ri p.2) →
      ∃ info2, addGenUsers gen info = (none, info2) ∧
        (∀ p ∈ gen, ∀ ri, lookupKey p.1 info = some ri →
          ∃ ri2, lookupKey p.1 info2 = some ri2 ∧
            ∀ q ∈ p.2.deviceServerHalfIDs,
              lookupKey q.1 ri2.deviceServerHalfIDs =
                some (((lookupKey q.1 ri.deviceServerHalfIDs).getD []) ++ q.2)) ∧
        (∀ u, u ∉ keysOf gen → lookupKey u info2 = lookupKey u info) := by
  intro gen
  induction gen with
  | nil =>
    intro info _ _ _
    exact ⟨info, rfl, by simp, fun u _ => rfl⟩
  | cons p0 rest ih =>
    obtain ⟨uid, gi⟩ := p0
    intro info hnd hdev hcons
    obtain ⟨huid_notin, hnd'⟩ := keysNodup_cons hnd
    have hp_ne : ∀ p ∈ rest, p.1 ≠ uid := by
      intro p hp hcontra
      exact huid_notin (by
        simpa [keysOf, ← hcontra] using List.mem_map_of_mem Prod.fst hp)
    obtain ⟨ri, hri, hP⟩ := hcons _ (List.mem_cons_self _ _)
    obtain ⟨ri2, haddg, hdev2⟩ :=
      addGeneration_ok_state uid ri gi (hdev _ (List.mem_cons_self _ _)) hP
    set info1 := setKey uid ri2 info with hinfo1
    have hstep : addGenUsers ((uid, gi) :: rest) info = addGenUsers rest info1 := by
      simp [addGenUsers, hri, haddg, hinfo1]
    have htrans : ∀ p ∈ rest, lookupKey p.1 info1 = lookupKey p.1 info := by
      intro p hp
      rw [hinfo1]
      exact lookupKey_setKey_ne _ (hp_ne p hp) _
    obtain ⟨info2, hloop, hlook, hframe⟩ :=
      ih info1 hnd' (fun p hp => hdev p (List.mem_cons_of_mem _ hp))
        (fun p hp => by
          obtain ⟨r, hr, hPr⟩ := hcons p (List.mem_cons_of_mem _ hp)
          exact ⟨r, by rw [htrans p hp]; exact hr, hPr⟩)
    refine ⟨info2, by rw [hstep, hloop], ?_, ?_⟩
    · intro p hp r hr
      rcases List.mem_cons.mp hp with rfl | hp'
      · have hrri : ri = r := by
          rw [hri] at hr
          exact Option.some.inj hr
        subst hrri
        refine ⟨ri2, ?_, hdev2⟩
        rw [hframe _ huid_notin, hinfo1]
        exact lookupKey_setKey_self _ _ _ (by rw [hri]; rfl)
      · exact hlook p hp' r (by rw [htrans p hp']; exact hr)
    · intro u hu
      have hu1 : u ∉ keysOf rest := by
        intro hc
        exact hu (by simp [keysOf] at hc ⊢; exact Or.inr hc)
      have hu2 : u ≠ uid := by
        intro hc
        exact hu (by simp [keysOf, hc])
      rw [hframe u hu1, hinfo1]
      exact lookupKey_setKey_ne _ hu2 _

/-- If the per-user loop of AddGeneration succeeds, every generation user
was present in the history and structurally consistent with it. -/
theorem addGenUsers_ok_inv :
    ∀ (gen : List (Nat × UserServerHalfRemovalInfo)) (info : ServerHalfRemovalInfo),
      keysNodup gen →
      (∀ p ∈ gen, keysNodup p.2.deviceServerHalfIDs) →
      (addGenUsers gen info).1 = none →
      ∀ p ∈ gen, ∃ ri, lookupKey p.1 info = some ri ∧ userGenerationConsistentP ri p.2 := by
  intro gen
  induction gen with
  | nil =>
    intro info _ _ _ p hp
    simp at hp
  | cons p0 rest ih =>
    obtain ⟨uid, gi⟩ := p0
    intro info hnd hdev h
    obtain ⟨huid_notin, hnd'⟩ := keysNodup_cons hnd
    have hp_ne : ∀ p ∈ rest, p.1 ≠ uid := by
      intro p hp hcontra
      exact huid_notin (by
        simpa [keysOf, ← hcontra] using List.mem_map_of_mem Prod.fst hp)
    cases hri : lookupKey uid info with
    | none =>
      exfalso
      simp only [addGenUsers] at h
      simp [hri] at h
    | some ri =>
      obtain ⟨e, ri2, haddg⟩ : ∃ e ri2, ri.addGeneration uid gi = (e, ri2) := ⟨_, _, rfl⟩
      cases e with
      | some err =>
        exfalso
        simp only [addGenUsers] at h
        simp [hri, haddg] at h
      | none =>
        have hstep : addGenUsers ((uid, gi) :: rest) info =
            addGenUsers rest (setKey uid ri2 info) := by
          simp [addGenUsers, hri, haddg]
        rw [hstep] at h
        have hPuid : userGenerationConsistentP ri gi :=
          (addGeneration_ok_iff uid ri gi (hdev _ (List.mem_cons_self _ _))).mp
            (by rw [haddg])
        intro p hp
        rcases List.mem_cons.mp hp with rfl | hp'
        · exact ⟨ri, hri, hPuid⟩
        · obtain ⟨r, hr, hPr⟩ :=
            ih (setKey uid ri2 info) hnd'
              (fun p2 hp2 => hdev p2 (List.mem_cons_of_mem _ hp2)) h p hp'
          refine ⟨r, ?_, hPr⟩
          rwa [lookupKey_setKey_ne _ (hp_ne p hp') _] at hr

/-! ## Lemmas about the merge loop -/

theorem mergeUsersLoop_ok {V : Type} :
    ∀ (b merged : List (Nat × V)),
      keysNodup b →
      (∀ p ∈ b, lookupKey p.1 merged = none) →
      mergeUsersLoop b merged = .ok (merged ++ b) := by
  intro b
  induction b with
  | nil =>
    intro merged _ _
    simp [mergeUsersLoop]
  | cons p0 rest ih =>
    obtain ⟨uid, v⟩ := p0
    intro merged hnd hdisj
    obtain ⟨huid_notin, hnd'⟩ := keysNodup_cons hnd
    have h0 : lookupKey uid merged = none := hdisj _ (List.mem_cons_self _ _)
    have hrec : mergeUsersLoop rest (merged ++ [(uid, v)]) =
        .ok ((merged ++ [(uid, v)]) ++ rest) := by
      refine ih (merged ++ [(uid, v)]) hnd' (fun p hp => ?_)
      have hne : ¬ uid = p.1 := by
        intro hcontra
        exact huid_notin (by
          simpa [keysOf, hcontra] using List.mem_map_of_mem Prod.fst hp)
      rw [lookupKey_append]
      simp [hdisj p (List.mem_cons_of_mem _ hp), lookupKey, hne]
    simp [mergeUsersLoop, h0, hrec]

theorem mergeUsersLoop_err {V : Type} :
    ∀ (b merged : List (Nat × V)) (u : Nat),
      keysNodup b →
      (lookupKey u b).isSome = true →
      (lookupKey u merged).isSome = true →
      ∃ c, mergeUsersLoop b merged = .error c ∧
        (lookupKey c merged).isSome = true ∧ (lookupKey c b).isSome = true := by
  intro b
  induction b with
  | nil =>
    intro merged u _ hu _
    simp [lookupKey] at hu
  | cons p0 rest ih =>
    obtain ⟨uid, v⟩ := p0
    intro merged u hnd hu hm
    obtain ⟨huid_notin, hnd'⟩ := keysNodup_cons hnd
    by_cases hin : (lookupKey uid merged).isSome = true
    · exact ⟨uid, by simp [mergeUsersLoop, hin], hin, by simp [lookupKey]⟩
    · have hne : ¬ uid = u := by
        intro hcontra
        exact hin (hcontra ▸ hm)
      have hu' : (lookupKey u rest).isSome = true := by
        simpa [lookupKey, hne] using hu
      have hm' : (lookupKey u (merged ++ [(uid, v)])).isSome = true := by
        rw [lookupKey_append]
        obtain ⟨w, hw⟩ := Option.isSome_iff_exists.mp hm
        simp [hw]
      obtain ⟨c, hc, hcm, hcb⟩ := ih (merged ++ [(uid, v)]) u hnd' hu' hm'
      have hc_rest : c ∈ keysOf rest := lookupKey_isSome_iff_mem.mp hcb
      have hc_ne : ¬ uid = c := by
        intro hcontra
        exact huid_notin (hcontra ▸ hc_rest)
      refine ⟨c, by simp [mergeUsersLoop, hin, hc], ?_, ?_⟩
      · rw [lookupKey_append] at hcm
        cases hl : lookupKey c merged with
        | none => rw [hl] at hcm; simp [lookupKey, hc_ne] at hcm
        | some w => simp
      · simp [lookupKey, hc_ne, hcb]

/-! ## Claim theorems for the removal accumulator -/

/-- C1: for every history and per-generation removal info satisfying all
structural conditions (equal user counts, every generation user present in
the history with matching UserRemoved flag and device count, every
generation device present in that user's history with exactly one incoming
ID, and all pre-call per-device accumulated lengths within a user equal),
`ServerHalfRemovalInfo.AddGeneration` succeeds and each named device's
accumulated ID list afterwards equals its previous list with the
generation's single ID appended at the end. -/
theorem addGeneration_happy_path (info gen : ServerHalfRemovalInfo)
    (hnd : keysNodup gen)
    (hdev : ∀ p ∈ gen, keysNodup p.2.deviceServerHalfIDs)
    (hcons : generationConsistent info gen = true) :
    ∃ info2, ServerHalfRemovalInfo.AddGeneration info gen = (none, info2) ∧
      ∀ p ∈ gen, ∀ q ∈ p.2.deviceServerHalfIDs,
        deviceIDs info2 p.1 q.1 = deviceIDs info p.1 q.1 ++ q.2 := by
  obtain ⟨hlen, husers⟩ := (generationConsistent_iff info gen).mp hcons
  obtain ⟨info2, hloop, hlook, _⟩ := addGenUsers_ok gen info hnd hdev husers
  refine ⟨info2, ?_, ?_⟩
  · simp [ServerHalfRemovalInfo.AddGeneration, hlen, hloop]
  · intro p hp q hq
    obtain ⟨ri, hri, _⟩ := husers p hp
    obtain ⟨ri2, hri2, hq2⟩ := hlook p hp ri hri
    simp [deviceIDs, hri, hri2, hq2 q hq]

/-- Witness for C1 at the spec's concrete instance: history for userA = 0
with one device d = 0 and accumulated IDs [1]; folding a generation with
deviceRemovalIDs d maps to [2] yields accumulated IDs [1, 2] in that
order. -/
theorem addGeneration_happy_path_witness :
    generationConsistent [(0, ⟨false, [(0, [1])]⟩)] [(0, ⟨false, [(0, [2])]⟩)] = true ∧
    ∃ info2,
      ServerHalfRemovalInfo.AddGeneration
          [(0, ⟨false, [(0, [1])]⟩)] [(0, ⟨false, [(0, [2])]⟩)] = (none, info2) ∧
      deviceIDs info2 0 0 = [1, 2] := by
  refine ⟨by decide, ?_⟩
  obtain ⟨info2, heq, hdev⟩ :=
    addGeneration_happy_path [(0, ⟨false, [(0, [1])]⟩)] [(0, ⟨false, [(0, [2])]⟩)]
      (by decide) (by decide) (by decide)
  refine ⟨info2, heq, ?_⟩
  have hd := hdev (0, ⟨false, [(0, [2])]⟩) (List.mem_cons_self _ _)
    (0, [2]) (List.mem_cons_self _ _)
  simpa [deviceIDs, lookupKey] using hd

/-- Counterexample to C2 as stated: history has user 0 with devices 0 and
1, both with empty accumulated lists; the generation gives device 0 a
single ID but device 1 two IDs.  AddGeneration reports the error on
device 1, but device 0's list has already been appended to in place, so a
rejected generation does leave partial appends behind. -/
theorem addGeneration_partial_append_cex :
    ServerHalfRemovalInfo.AddGeneration
        [(0, ⟨false, [(0, []), (1, [])]⟩)]
        [(0, ⟨false, [(0, [10]), (1, [20, 30])]⟩)] =
      (some (.wrongIDsPerDevice 2 0 1), [(0, ⟨false, [(0, [10]), (1, [])]⟩)]) ∧
    deviceIDs (ServerHalfRemovalInfo.AddGeneration
        [(0, ⟨false, [(0, []), (1, [])]⟩)]
        [(0, ⟨false, [(0, [10]), (1, [20, 30])]⟩)]).2 0 0 ≠
      deviceIDs [(0, ⟨false, [(0, []), (1, [])]⟩)] 0 0 := by
  decide

/-- C2 amended: only errors raised before any per-device processing are
guaranteed to leave the history untouched; in particular the top-level
user-count check fails with the history returned exactly as passed in.
Errors raised inside the per-device loop may leave appends from devices
processed earlier in place (see the counterexample). -/
theorem addGeneration_user_count_error (info gen : ServerHalfRemovalInfo)
    (h : info.length ≠ gen.length) :
    ServerHalfRemovalInfo.AddGeneration info gen =
      (some (.userCountMismatch info.length gen.length), info) := by
  simp [ServerHalfRemovalInfo.AddGeneration, h]

/-- Witness for the amended C2. -/
theorem addGeneration_user_count_error_witness :
    ServerHalfRemovalInfo.AddGeneration [(0, ⟨false, []⟩)] [] =
      (some (.userCountMismatch 1 0), [(0, ⟨false, []⟩)]) :=
  addGeneration_user_count_error [(0, ⟨false, []⟩)] [] (by decide)

/-- C3: AddGeneration returns an error exactly when the inputs violate
one of the structural conditions; equivalently it returns no error iff
the generation is structurally consistent with the history.  Each error
names the offending data: the `KBError` constructors carry the user,
device (where applicable) and conflicting values that the Go
`fmt.Errorf` messages format. -/
theorem addGeneration_ok_iff_consistent (info gen : ServerHalfRemovalInfo)
    (hnd : keysNodup gen)
    (hdev : ∀ p ∈ gen, keysNodup p.2.deviceServerHalfIDs) :
    (ServerHalfRemovalInfo.AddGeneration info gen).1 = none ↔
      generationConsistent info gen = true := by
  rw [generationConsistent_iff]
  by_cases hlen : info.length = gen.length
  · constructor
    · intro h
      refine ⟨hlen, ?_⟩
      apply addGenUsers_ok_inv gen info hnd hdev
      simpa [ServerHalfRemovalInfo.AddGeneration, hlen] using h
    · rintro ⟨_, husers⟩
      obtain ⟨info2, hloop, _, _⟩ := addGenUsers_ok gen info hnd hdev husers
      simp [ServerHalfRemovalInfo.AddGeneration, hlen, hloop]
  · constructor
    · intro h
      exfalso
      simp [ServerHalfRemovalInfo.AddGeneration, hlen] at h
    · rintro ⟨h1, _⟩
      exact absurd h1 hlen

/-- Witness for C3: a consistent one-user, one-device fold succeeds. -/
theorem addGeneration_ok_iff_consistent_witness :
    (ServerHalfRemovalInfo.AddGeneration
        [(3, ⟨true, [(7, [4])]⟩)] [(3, ⟨true, [(7, [9])]⟩)]).1 = none :=
  (addGeneration_ok_iff_consistent
      [(3, ⟨true, [(7, [4])]⟩)] [(3, ⟨true, [(7, [9])]⟩)]
      (by decide) (by decide)).mpr (by decide)

/-- C10: AddGeneration on an empty history and empty generation succeeds
and leaves the history empty; and for any user whose device map is empty
in both the history and the generation and whose UserRemoved flags agree,
the per-user fold succeeds vacuously and leaves the record unchanged, so
no IDs are ever accumulated for such a user. -/
theorem addGeneration_empty_ok :
    ServerHalfRemovalInfo.AddGeneration [] [] = (none, []) ∧
    ∀ (uid : Nat) (ri genInfo : UserServerHalfRemovalInfo),
      ri.userRemoved = genInfo.userRemoved →
      ri.deviceServerHalfIDs = [] →
      genInfo.deviceServerHalfIDs = [] →
      ri.addGeneration uid genInfo = (none, ri) := by
  refine ⟨rfl, ?_⟩
  intro uid ri genInfo hf h1 h2
  simp [UserServerHalfRemovalInfo.addGeneration, hf, h1, h2, addGenLoop]

/-- Witness for C10: a removed user with zero devices passes the
per-generation checks vacuously. -/
theorem addGeneration_empty_ok_witness :
    UserServerHalfRemovalInfo.addGeneration ⟨true, []⟩ 6 ⟨true, []⟩ =
      (none, (⟨true, []⟩ : UserServerHalfRemovalInfo)) :=
  addGeneration_empty_ok.2 6 ⟨true, []⟩ ⟨true, []⟩ rfl rfl rfl

/-! ## Claim theorems for key splitting -/

/-- C4: whenever all three injected primitive calls succeed,
`SplitTLFCryptKey` returns exactly the server half produced by
MakeRandomTLFCryptKeyServerHalf, a KeyInfo whose ClientHalf is the
encryption under (ePrivKey, pubKey) of the client half obtained by
masking the server half against the folder key, whose ServerHalfID is
GetTLFCryptKeyServerHalfID(uid, pubKey, serverHalf), and whose
EPubKeyIndex is the ePubIndex argument, with no error.  The definition
sequences the three steps in exactly this data-flow order; the
failure-propagation theorem shows later steps are not consulted once an
earlier one fails. -/
theorem splitTLFCryptKey_success (crypto : CryptoPure)
    (uid tlfCryptKey ePrivKey : Nat) (ePubIndex : Int) (pubKey : Nat)
    (serverHalf encryptedClientHalf serverHalfID : Nat)
    (h1 : crypto.makeRandomTLFCryptKeyServerHalf = .ok serverHalf)
    (h2 : crypto.encryptTLFCryptKeyClientHalf ePrivKey pubKey
            (MaskTLFCryptKey serverHalf tlfCryptKey) = .ok encryptedClientHalf)
    (h3 : crypto.getTLFCryptKeyServerHalfID uid pubKey serverHalf = .ok serverHalfID) :
    SplitTLFCryptKey crypto uid tlfCryptKey ePrivKey ePubIndex pubKey =
      (⟨encryptedClientHalf, serverHalfID, ePubIndex⟩, serverHalf, none) := by
  simp [SplitTLFCryptKey, h1, h2, h3]

/-- Witness for C4 on the deterministic stub. -/
theorem splitTLFCryptKey_success_witness :
    SplitTLFCryptKey stubCrypto 1 3 2 7 4 = (⟨12, 145, 7⟩, 5, none) :=
  splitTLFCryptKey_success stubCrypto 1 3 2 7 4 5 12 145 rfl rfl rfl

/-- C5: if one of the three primitive steps fails, `SplitTLFCryptKey`
returns that primitive's error unchanged together with a zero-valued
TLFCryptKeyInfo and a zero-valued server half, and the result does not
depend on the primitives that come after the failing step (they are
quantified over arbitrary replacements), so no later step is consulted. -/
theorem splitTLFCryptKey_failure (crypto : CryptoPure)
    (uid tlfCryptKey ePrivKey : Nat) (ePubIndex : Int) (pubKey : Nat) (e : Nat) :
    (crypto.makeRandomTLFCryptKeyServerHalf = .error e →
      ∀ enc gid,
        SplitTLFCryptKey ⟨crypto.makeRandomTLFCryptKeyServerHalf, enc, gid⟩
            uid tlfCryptKey ePrivKey ePubIndex pubKey =
          (TLFCryptKeyInfo.zero, 0, some e)) ∧
    (∀ serverHalf, crypto.makeRandomTLFCryptKeyServerHalf = .ok serverHalf →
      crypto.encryptTLFCryptKeyClientHalf ePrivKey pubKey
          (MaskTLFCryptKey serverHalf tlfCryptKey) = .error e →
      ∀ gid,
        SplitTLFCryptKey
            ⟨crypto.makeRandomTLFCryptKeyServerHalf,
             crypto.encryptTLFCryptKeyClientHalf, gid⟩
            uid tlfCryptKey ePrivKey ePubIndex pubKey =
          (TLFCryptKeyInfo.zero, 0, some e)) ∧
    (∀ serverHalf encryptedClientHalf,
      crypto.makeRandomTLFCryptKeyServerHalf = .ok serverHalf →
      crypto.encryptTLFCryptKeyClientHalf ePrivKey pubKey
          (MaskTLFCryptKey serverHalf tlfCryptKey) = .ok encryptedClientHalf →
      crypto.getTLFCryptKeyServerHalfID uid pubKey serverHalf = .error e →
      SplitTLFCryptKey crypto uid tlfCryptKey ePrivKey ePubIndex pubKey =
        (TLFCryptKeyInfo.zero, 0, some e)) := by
  refine ⟨?_, ?_, ?_⟩
  · intro h enc gid
    simp [SplitTLFCryptKey, h]
  · intro serverHalf h1 h2 gid
    simp [SplitTLFCryptKey, h1, h2]
  · intro serverHalf encryptedClientHalf h1 h2 h3
    simp [SplitTLFCryptKey, h1, h2, h3]

/-- Witness for C5: the failing-random stub propagates its error with
zero-valued outputs. -/
theorem splitTLFCryptKey_failure_witness :
    SplitTLFCryptKey failRandomCrypto 1 3 2 7 4 =
      (TLFCryptKeyInfo.zero, 0, some 9) :=
  (splitTLFCryptKey_failure failRandomCrypto 1 3 2 7 4 9).1 rfl
    failRandomCrypto.encryptTLFCryptKeyClientHalf
    failRandomCrypto.getTLFCryptKeyServerHalfID

/-! ## Claim theorem for the disjoint merges -/

/-- C8: for the generic merge shared by
`UserDeviceKeyServerHalves.MergeUsers` and
`ServerHalfRemovalInfo.MergeUsers` (both are definitionally `mergeUsers`
at their payload type): on disjoint operands the merge succeeds with a
map containing every user from both operands, each user's payload taken
unchanged from whichever operand held it; on any shared user it fails
with an error naming a colliding user and returns no merged map. -/
theorem mergeUsers_disjoint_spec {V : Type} (a other : List (Nat × V))
    (hnd : keysNodup other) :
    ((∀ p ∈ other, lookupKey p.1 a = none) →
        mergeUsers a other = .ok (a ++ other) ∧
        ∀ u, lookupKey u (a ++ other) =
          match lookupKey u a with
          | some v => some v
          | none => lookupKey u other) ∧
    (∀ u, (lookupKey u a).isSome = true → (lookupKey u other).isSome = true →
      ∃ c, mergeUsers a other = .error c ∧
        (lookupKey c a).isSome = true ∧ (lookupKey c other).isSome = true) := by
  constructor
  · intro hdisj
    exact ⟨mergeUsersLoop_ok other a hnd hdisj, fun u => lookupKey_append u a other⟩
  · intro u hua huo
    exact mergeUsersLoop_err other a u hnd huo hua

/-- Witness for C8, exercising both Go-named merges: a disjoint merge of
server-half bundles succeeds with both users present, and a colliding
merge of removal infos errors naming the shared user. -/
theorem mergeUsers_disjoint_spec_witness :
    UserDeviceKeyServerHalves.MergeUsers [(1, [(5, 7)])] [(2, [(6, 8)])] =
      .ok [(1, [(5, 7)]), (2, [(6, 8)])] ∧
    ∃ c, ServerHalfRemovalInfo.MergeUsers
        [(3, ⟨true, []⟩)] [(3, ⟨false, [(4, [5])]⟩)] = .error c := by
  constructor
  · exact ((mergeUsers_disjoint_spec [(1, [(5, 7)])] [(2, [(6, 8)])]
      (by decide)).1 (by decide)).1
  · obtain ⟨c, hc, _, _⟩ := (mergeUsers_disjoint_spec
      [(3, (⟨true, []⟩ : UserServerHalfRemovalInfo))] [(3, ⟨false, [(4, [5])]⟩)]
      (by decide)).2 3 (by decide) (by decide)
    exact ⟨c, hc⟩

/-! ## Lemmas about the device public-key sets -/

theorem mem_of_subset_nodup_len (l1 l2 : List Nat)
    (h1 : l1.Nodup) (h2 : l2.Nodup) (hl : l1.length = l2.length)
    (hs : ∀ x ∈ l1, x ∈ l2) : ∀ x ∈ l2, x ∈ l1 := by
  have hsub : l1.toFinset ⊆ l2.toFinset := by
    intro x hx
    rw [List.mem_toFinset] at hx ⊢
    exact hs x hx
  have hcard : l2.toFinset.card ≤ l1.toFinset.card := by
    rw [List.toFinset_card_of_nodup h1, List.toFinset_card_of_nodup h2, hl]
  have heq := Finset.eq_of_subset_of_card_le hsub hcard
  intro x hx
  rw [← List.mem_toFinset, ← heq, List.mem_toFinset] at hx
  exact hx

theorem length_eq_of_nodup_mutual_subset (l1 l2 : List Nat)
    (h1 : l1.Nodup) (h2 : l2.Nodup)
    (hs : ∀ x ∈ l1, x ∈ l2) (hs2 : ∀ x ∈ l2, x ∈ l1) :
    l1.length = l2.length := by
  have heq : l1.toFinset = l2.toFinset := by
    apply Finset.Subset.antisymm
    · intro x hx
      rw [List.mem_toFinset] at hx ⊢
      exact hs x hx
    · intro x hx
      rw [List.mem_toFinset] at hx ⊢
      exact hs2 x hx
  rw [← List.toFinset_card_of_nodup h1, ← List.toFinset_card_of_nodup h2, heq]

/-- On an all-true map, the Go membership read `other[k]` is true exactly
when the key is stored. -/
theorem dpk_lookup_true_iff {other : DevicePublicKeys}
    (hb : ∀ p ∈ other, p.2 = true) (k : Nat) :
    ((lookupKey k other).getD false = true) ↔ k ∈ keysOf other := by
  cases h : lookupKey k other with
  | none =>
    simp [lookupKey_eq_none_iff_not_mem.mp h]
  | some v =>
    have hmem := lookupKey_eq_some_mem h
    have hv : v = true := hb _ hmem
    have hk : k ∈ keysOf other := lookupKey_isSome_iff_mem.mp (by simp [h])
    simp [hv, hk]

/-- Characterization of `DevicePublicKeys.Equals` against an all-true
second operand. -/
theorem dpkEquals_true_iff {a b : DevicePublicKeys}
    (hb : ∀ p ∈ b, p.2 = true) :
    DevicePublicKeys.Equals a b = true ↔
      (a.length = b.length ∧ ∀ p ∈ a, p.1 ∈ keysOf b) := by
  simp only [DevicePublicKeys.Equals, Bool.and_eq_true, beq_iff_eq, List.all_eq_true]
  constructor
  · rintro ⟨h1, h2⟩
    exact ⟨h1, fun p hp => (dpk_lookup_true_iff hb p.1).mp (h2 p hp)⟩
  · rintro ⟨h1, h2⟩
    exact ⟨h1, fun p hp => (dpk_lookup_true_iff hb p.1).mpr (h2 p hp)⟩

theorem dpkEquals_length {a b : DevicePublicKeys}
    (h : DevicePublicKeys.Equals a b = true) : a.length = b.length := by
  simp only [DevicePublicKeys.Equals, Bool.and_eq_true, beq_iff_eq] at h
  exact h.1

theorem keysOf_filter_subset {V : Type} (pred : Nat × V → Bool)
    (l : List (Nat × V)) : ∀ x ∈ keysOf (l.filter pred), x ∈ keysOf l := by
  intro x hx
  obtain ⟨p, hp, rfl⟩ := List.mem_map.mp hx
  exact List.mem_map_of_mem Prod.fst (List.mem_of_mem_filter hp)

theorem lookupKey_filter {V : Type} (pred : Nat × V → Bool) :
    ∀ (l : List (Nat × V)), keysNodup l → ∀ u,
      lookupKey u (l.filter pred) =
        match lookupKey u l with
        | some d => if pred (u, d) = true then some d else none
        | none => none := by
  intro l
  induction l with
  | nil =>
    intro _ u
    simp [lookupKey]
  | cons p0 rest ih =>
    obtain ⟨k, v⟩ := p0
    intro hnd u
    obtain ⟨hk_notin, hnd'⟩ := keysNodup_cons hnd
    by_cases hku : k = u
    · subst hku
      by_cases hp : pred (k, v) = true
      · simp [List.filter_cons, hp, lookupKey]
      · have hnone : lookupKey k (rest.filter pred) = none := by
          rw [lookupKey_eq_none_iff_not_mem]
          intro hmem
          exact hk_notin (keysOf_filter_subset pred rest k hmem)
        simp [List.filter_cons, hp, lookupKey, hnone]
    · by_cases hp : pred (k, v) = true
      · simp [List.filter_cons, hp, lookupKey, hku]
        exact ih hnd' u
      · simp [List.filter_cons, hp, lookupKey, hku]
        exact ih hnd' u

/-! ## Claim theorems for the device public-key sets -/

/-- Counterexample to C7 as stated: over arbitrary bool-valued
DevicePublicKeys maps (the Go type allows storing false), Equals is
neither symmetric nor reflexive, because the length check counts all
stored entries while the membership read tests the stored value. -/
theorem dpkEquals_cex :
    DevicePublicKeys.Equals [(5, true)] [(5, false)] = false ∧
    DevicePublicKeys.Equals [(5, false)] [(5, true)] = true ∧
    DevicePublicKeys.Equals [(5, false)] [(5, false)] = false := by
  decide

/-- C7 amended: restricted to maps all of whose stored values are true —
the map-as-set idiom the code maintains — DevicePublicKeys.Equals is
symmetric, reflexive, true exactly when the two sets have the same
cardinality and every key of the first is present in the second, and a
set differing from `a` by one extra key is unequal to `a`.  Over
arbitrary bool-valued maps symmetry and reflexivity fail (see the
counterexample). -/
theorem dpkEquals_amended (a b : DevicePublicKeys)
    (ha : ∀ p ∈ a, p.2 = true) (hb : ∀ p ∈ b, p.2 = true)
    (hna : keysNodup a) (hnb : keysNodup b) :
    (DevicePublicKeys.Equals a b = DevicePublicKeys.Equals b a) ∧
    DevicePublicKeys.Equals a a = true ∧
    (DevicePublicKeys.Equals a b = true ↔
      (a.length = b.length ∧ ∀ p ∈ a, p.1 ∈ keysOf b)) ∧
    (∀ x xv, lookupKey x a = none →
      DevicePublicKeys.Equals a ((x, xv) :: a) = false) := by
  have hlena : (keysOf a).length = a.length := List.length_map _ _
  have hlenb : (keysOf b).length = b.length := List.length_map _ _
  refine ⟨?_, ?_, dpkEquals_true_iff hb, ?_⟩
  · by_cases hlen : a.length = b.length
    · by_cases hab : DevicePublicKeys.Equals a b = true
      · obtain ⟨_, hsub⟩ := (dpkEquals_true_iff hb).mp hab
        have hsub' : ∀ x ∈ keysOf a, x ∈ keysOf b := by
          intro x hx
          obtain ⟨p, hp, rfl⟩ := List.mem_map.mp hx
          exact hsub p hp
        have hflip := mem_of_subset_nodup_len (keysOf a) (keysOf b) hna hnb
          (by rw [hlena, hlenb, hlen]) hsub'
        have hba : DevicePublicKeys.Equals b a = true :=
          (dpkEquals_true_iff ha).mpr
            ⟨hlen.symm, fun p hp => hflip p.1 (List.mem_map_of_mem Prod.fst hp)⟩
        rw [hab, hba]
      · have hba : ¬ DevicePublicKeys.Equals b a = true := by
          intro hba
          obtain ⟨_, hsub⟩ := (dpkEquals_true_iff ha).mp hba
          have hsub' : ∀ x ∈ keysOf b, x ∈ keysOf a := by
            intro x hx
            obtain ⟨p, hp, rfl⟩ := List.mem_map.mp hx
            exact hsub p hp
          have hflip := mem_of_subset_nodup_len (keysOf b) (keysOf a) hnb hna
            (by rw [hlena, hlenb, hlen]) hsub'
          exact hab ((dpkEquals_true_iff hb).mpr
            ⟨hlen, fun p hp => hflip p.1 (List.mem_map_of_mem Prod.fst hp)⟩)
        rw [Bool.not_eq_true] at hab hba
        rw [hab, hba]
    · have h1 : DevicePublicKeys.Equals a b = false := by
        simp [DevicePublicKeys.Equals, hlen]
      have hlen' : ¬ List.length b = List.length a := fun hh => hlen hh.symm
      have h2 : DevicePublicKeys.Equals b a = false := by
        simp [DevicePublicKeys.Equals, hlen']
      rw [h1, h2]
  · exact (dpkEquals_true_iff ha).mpr
      ⟨rfl, fun p hp => List.mem_map_of_mem Prod.fst hp⟩
  · intro x xv _
    simp [DevicePublicKeys.Equals]

/-- Witness for the amended C7: two equal two-element sets in different
order compare equal, and a set with one extra key compares unequal. -/
theorem dpkEquals_amended_witness :
    DevicePublicKeys.Equals [(4, true), (6, true)] [(6, true), (4, true)] = true ∧
    DevicePublicKeys.Equals [(4, true)] [(8, true), (4, true)] = false := by
  constructor
  · exact ((dpkEquals_amended [(4, true), (6, true)] [(6, true), (4, true)]
      (by decide) (by decide) (by decide) (by decide)).2.2.1).mpr
      ⟨by decide, by decide⟩
  · exact (dpkEquals_amended [(4, true)] [(4, true)]
      (by decide) (by decide) (by decide) (by decide)).2.2.2 8 true (by decide)

/-- Counterexample to C6 as stated: the code returns true for two maps
with different user sets, because a user of `a` with an empty device set
compares equal to the empty set read for a missing user of `b`, and
users present only in `b` are never visited.  Here a = \x7buser 1: empty\x7d
and b = \x7buser 2: \x7bkey 7\x7d\x7d compare equal although the user
sets differ and user 2's device sets differ. -/
theorem udpkEquals_cex :
    UserDevicePublicKeys.Equals [(1, [])] [(2, [(7, true)])] = true ∧
    lookupKey 2 ([(1, [])] : UserDevicePublicKeys) = none ∧
    (lookupKey 2 ([(2, [(7, true)])] : UserDevicePublicKeys)).isSome = true ∧
    DevicePublicKeys.Equals [] [(7, true)] = false := by
  decide

/-- C6 amended: when every device set stored in `a` is non-empty (the
spec's invariant for kept views), UserDevicePublicKeys.Equals is true
exactly when the two maps have the same user set and, for every user of
`a`, DevicePublicKeys.Equals holds against `b`'s set for that user
(missing users read as the empty set).  Without the non-emptiness
restriction the same-user-set part fails (see the counterexample). -/
theorem udpkEquals_amended (a b : UserDevicePublicKeys)
    (hna : keysNodup a) (hnb : keysNodup b)
    (hne : ∀ p ∈ a, p.2 ≠ []) :
    UserDevicePublicKeys.Equals a b = true ↔
      ((∀ p ∈ a, p.1 ∈ keysOf b) ∧ (∀ p ∈ b, p.1 ∈ keysOf a) ∧
       ∀ p ∈ a, DevicePublicKeys.Equals p.2 ((lookupKey p.1 b).getD []) = true) := by
  have hlena : (keysOf a).length = a.length := List.length_map _ _
  have hlenb : (keysOf b).length = b.length := List.length_map _ _
  simp only [UserDevicePublicKeys.Equals, Bool.and_eq_true, beq_iff_eq, List.all_eq_true]
  constructor
  · rintro ⟨hlen, hall⟩
    have hsub : ∀ p ∈ a, p.1 ∈ keysOf b := by
      intro p hp
      have hdlen := dpkEquals_length (hall p hp)
      cases hlb : lookupKey p.1 b with
      | none =>
        exfalso
        rw [hlb] at hdlen
        simp at hdlen
        exact hne p hp hdlen
      | some _ =>
        exact lookupKey_isSome_iff_mem.mp (by simp [hlb])
    have hsub' : ∀ x ∈ keysOf a, x ∈ keysOf b := by
      intro x hx
      obtain ⟨p, hp, rfl⟩ := List.mem_map.mp hx
      exact hsub p hp
    have hflip := mem_of_subset_nodup_len (keysOf a) (keysOf b) hna hnb
      (by rw [hlena, hlenb, hlen]) hsub'
    exact ⟨hsub, fun p hp => hflip p.1 (List.mem_map_of_mem Prod.fst hp), hall⟩
  · rintro ⟨hsab, hsba, hall⟩
    have hlen : a.length = b.length := by
      rw [← hlena, ← hlenb]
      apply length_eq_of_nodup_mutual_subset (keysOf a) (keysOf b) hna hnb
      · intro x hx
        obtain ⟨p, hp, rfl⟩ := List.mem_map.mp hx
        exact hsab p hp
      · intro x hx
        obtain ⟨p, hp, rfl⟩ := List.mem_map.mp hx
        exact hsba p hp
    exact ⟨hlen, hall⟩

/-- Witness for the amended C6. -/
theorem udpkEquals_amended_witness :
    UserDevicePublicKeys.Equals [(1, [(4, true)])] [(1, [(4, true)])] = true :=
  (udpkEquals_amended [(1, [(4, true)])] [(1, [(4, true)])]
    (by decide) (by decide) (by decide)).mpr ⟨by decide, by decide, by decide⟩

/-- C9: RemoveKeylessUsersForTest returns a mapping containing exactly
the users of the input whose device set is non-empty, with their device
sets unchanged (characterized through lookups and through membership both
ways), and it is idempotent.  The Go code builds a fresh map and never
writes to its receiver, which the pure embedding represents by returning
a new value. -/
theorem removeKeylessUsers_spec (m : UserDevicePublicKeys) (h : keysNodup m) :
    (∀ u, lookupKey u (UserDevicePublicKeys.RemoveKeylessUsersForTest m) =
      match lookupKey u m with
      | some d => if 0 < d.length then some d else none
      | none => none) ∧
    (∀ p ∈ UserDevicePublicKeys.RemoveKeylessUsersForTest m,
      p ∈ m ∧ 0 < p.2.length) ∧
    (∀ p ∈ m, 0 < p.2.length →
      p ∈ UserDevicePublicKeys.RemoveKeylessUsersForTest m) ∧
    UserDevicePublicKeys.RemoveKeylessUsersForTest
        (UserDevicePublicKeys.RemoveKeylessUsersForTest m) =
      UserDevicePublicKeys.RemoveKeylessUsersForTest m := by
  refine ⟨?_, ?_, ?_, ?_⟩
  · intro u
    have hlf := lookupKey_filter (fun p => decide (0 < p.2.length)) m h u
    simp only [UserDevicePublicKeys.RemoveKeylessUsersForTest]
    rw [hlf]
    cases hl : lookupKey u m with
    | none => rfl
    | some d =>
      by_cases hd : 0 < d.length
      · simp [hd]
      · simp [hd]
  · intro p hp
    have := List.mem_filter.mp hp
    exact ⟨this.1, by simpa using this.2⟩
  · intro p hp hlen
    exact List.mem_filter.mpr ⟨hp, by simpa using hlen⟩
  · simp [UserDevicePublicKeys.RemoveKeylessUsersForTest, List.filter_filter]

/-- Witness for C9 on a concrete map with one keyless and one keyed
user. -/
theorem removeKeylessUsers_spec_witness :
    UserDevicePublicKeys.RemoveKeylessUsersForTest [(1, []), (2, [(7, true)])] =
      [(2, [(7, true)])] ∧
    lookupKey 1 (UserDevicePublicKeys.RemoveKeylessUsersForTest
      [(1, []), (2, [(7, true)])]) = none := by
  have hspec := removeKeylessUsers_spec [(1, []), (2, [(7, true)])] (by decide)
  refine ⟨by decide, ?_⟩
  rw [hspec.1 1]
  decide

end KeyBundle
